import Mathlib

/-!
# Verification of `animate.py`

A shallow embedding of the orchestration script `src/animate.py` (a batch
media-transformation pipeline over a remote file store and a remote
generation service), together with theorems settling the specified
properties of its pure core: work discovery and filtering, endpoint
resolution, retry-with-backoff, result normalization, naming conventions,
the size gate, and the upload-before-rename ordering of the per-item loop.

External effects (the remote store, the generation call, the filesystem
`os.path.exists` check, the wall clock) are modelled as explicit oracle
parameters; every function of the script that computes on data is
translated directly.
-/

namespace Animate

/-! ## Constants (`animate.py` lines 15-25) -/

def SPACE_ID : String := "Wan-AI/Wan2.2-Animate"

def WAN_MODE : String := "wan2.2-animate-mix"

def WAN_QUALITY : String := "wan-pro"

def PROCESSED_TAG : String := "__PROCESSED"

def MAX_VIDEO_MB : Nat := 200

/-! ## String helpers

Python's `in` operator on strings is substring containment; `str.startswith`
is a prefix test.  We model both on `List Char`. -/

/-- `startsWithB p l` is true iff `p` is an initial segment of `l`
(Python `l.startswith(p)`). -/
def startsWithB : List Char → List Char → Bool
  | [], _ => true
  | _ :: _, [] => false
  | a :: as, b :: bs => a == b && startsWithB as bs

/-- `containsSub p l` is true iff `p` occurs contiguously inside `l`
(Python `p in l`). -/
def containsSub (p : List Char) : List Char → Bool
  | [] => p.isEmpty
  | c :: rest => startsWithB p (c :: rest) || containsSub p rest

theorem startsWithB_iff (p : List Char) :
    ∀ l : List Char, startsWithB p l = true ↔ ∃ t, l = p ++ t := by
  induction p with
  | nil =>
    intro l
    simp [startsWithB]
  | cons a as ih =>
    intro l
    cases l with
    | nil =>
      simp [startsWithB]
    | cons b bs =>
      simp only [startsWithB, Bool.and_eq_true, beq_iff_eq]
      constructor
      · rintro ⟨rfl, h⟩
        obtain ⟨t, rfl⟩ := (ih bs).mp h
        exact ⟨t, rfl⟩
      · rintro ⟨t, ht⟩
        simp only [List.cons_append, List.cons.injEq] at ht
        obtain ⟨rfl, rfl⟩ := ht
        exact ⟨rfl, (ih _).mpr ⟨t, rfl⟩⟩

theorem containsSub_iff (p : List Char) :
    ∀ l : List Char, containsSub p l = true ↔ ∃ s t, l = s ++ p ++ t := by
  intro l
  induction l with
  | nil =>
    simp only [containsSub, List.isEmpty_iff]
    constructor
    · rintro rfl
      exact ⟨[], [], rfl⟩
    · rintro ⟨s, t, ht⟩
      rcases List.append_eq_nil.mp ht.symm with ⟨h1, rfl⟩
      exact (List.append_eq_nil.mp h1).2
  | cons c rest ih =>
    simp only [containsSub, Bool.or_eq_true, startsWithB_iff, ih]
    constructor
    · rintro (⟨t, ht⟩ | ⟨s, t, ht⟩)
      · exact ⟨[], t, by simpa using ht⟩
      · exact ⟨c :: s, t, by simp [ht]⟩
    · rintro ⟨s, t, ht⟩
      cases s with
      | nil =>
        exact Or.inl ⟨t, by simpa using ht⟩
      | cons s0 ss =>
        simp only [List.cons_append, List.cons.injEq, List.append_assoc] at ht
        exact Or.inr ⟨ss, t, by simp [ht.2]⟩

/-! ## `is_processed` and `safe_filename` (`animate.py` lines 87-92) -/

/-- `is_processed(name)`: `PROCESSED_TAG in name`. -/
def is_processed (name : String) : Bool :=
  containsSub PROCESSED_TAG.data name.data

/-- The character class `[a-zA-Z0-9._-]` of the `safe_filename` regex. -/
def allowedChar (c : Char) : Bool :=
  (('a' ≤ c && c ≤ 'z') || ('A' ≤ c && c ≤ 'Z') || ('0' ≤ c && c ≤ '9')
    || c == '.' || c == '_' || c == '-')

/-- `re.sub(r"[^a-zA-Z0-9._-]+", "_", ·)`: each maximal run of disallowed
characters is replaced by a single underscore.  The boolean flag records
whether we are currently inside such a run. -/
def subDisallowed : Bool → List Char → List Char
  | _, [] => []
  | inRun, c :: rest =>
    if allowedChar c then c :: subDisallowed false rest
    else if inRun then subDisallowed true rest
    else '_' :: subDisallowed true rest

/-- Python `str.strip("_")`: remove all leading and trailing underscores. -/
def stripUnderscore (l : List Char) : List Char :=
  ((l.dropWhile (· == '_')).reverse.dropWhile (· == '_')).reverse

/-- `safe_filename(name)`: `re.sub(r"[^a-zA-Z0-9._-]+", "_", name).strip("_")`. -/
def safe_filename (name : String) : String :=
  ⟨stripUnderscore (subDisallowed false name.data)⟩

/-! ## The remote store data model

A Drive file as requested by `list_files_in_folder`
(`fields="... files(id, name, mimeType, createdTime, modifiedTime, size)"`),
plus the server-side `trashed` flag that the query string filters on.
`size` is Drive's decimal string, already read through Python's `int`
(`int(f.get("size") or 0)` maps an absent field to `0`). -/
structure RemoteFile where
  id : String
  name : String
  mimeType : String
  createdTime : Option String
  modifiedTime : Option String
  size : Option Nat
  trashed : Bool
deriving DecidableEq

/-- Python `a or b` on optional strings: `None` and `""` are falsy. -/
def pyOrStr : Option String → Option String → Option String
  | none, b => b
  | some s, b => if s = "" then b else some s

/-- `list_files_in_folder(drive, folder_id, mime_prefix)`: the store is
modelled as the full list of the folder's files, and the server-side query
`'folder' in parents and trashed = false [and mimeType contains 'p']`
(pagination is transparent) as the corresponding filter. -/
def list_files_in_folder (store : List RemoteFile) (mime_pre : Option String) :
    List RemoteFile :=
  store.filter fun f =>
    !f.trashed &&
      (match mime_pre with
       | some p => containsSub p.data f.mimeType.data
       | none => true)

/-- The sort key of `main`'s queue ordering:
`f.get("modifiedTime") or f.get("createdTime") or ""`. -/
def sortKey (f : RemoteFile) : String :=
  (pyOrStr f.modifiedTime f.createdTime).getD ""

/-- The queue discovery of `main` (lines 214-216): list non-trashed
`video/`-mime files, drop processed ones, sort ascending by
`modifiedTime or createdTime or ""`. -/
def listUnprocessedVideos (store : List RemoteFile) : List RemoteFile :=
  ((list_files_in_folder store (some "video/")).filter
      (fun f => !is_processed f.name)).mergeSort
    fun a b => decide (sortKey a ≤ sortKey b)

/-- The timestamp used by `pick_latest_image`'s `parse_dt`:
`f.get("modifiedTime") or f.get("createdTime")`, interpreted through a
parameter `parseDt` standing for `datetime.fromisoformat` (a file with
neither timestamp raises in Python; it is mapped to `parseDt ""` here, and
every theorem below holds for an arbitrary `parseDt`). -/
def parse_dt (parseDt : String → Nat) (f : RemoteFile) : Nat :=
  parseDt ((pyOrStr f.modifiedTime f.createdTime).getD "")

/-- The candidate filter of `pick_latest_image`: image mime type and name
not starting with a dot. -/
def imageCandidates (files : List RemoteFile) : List RemoteFile :=
  files.filter fun f =>
    startsWithB "image/".data f.mimeType.data && !startsWithB ".".data f.name.data

/-- `pick_latest_image(files)` (lines 69-84): keep non-hidden image-mime
files, sort descending by `parse_dt`, return the first, or `none` if the
candidate set is empty. -/
def pick_latest_image (parseDt : String → Nat) (files : List RemoteFile) :
    Option RemoteFile :=
  ((imageCandidates files).mergeSort
      fun a b => decide (parse_dt parseDt b ≤ parse_dt parseDt a)).head?

/-! ## `os.path.splitext` and the naming conventions -/

/-- Index of the last occurrence of `c` in `l`, if any (`str.rfind`). -/
def rlast (c : Char) : List Char → Option Nat
  | [] => none
  | a :: rest =>
    match rlast c rest with
    | some i => some (i + 1)
    | none => if a == c then some 0 else none

/-- `os.path.splitext` (posixpath `_splitext`): split at the last dot,
provided it lies strictly after the last `/` (encoded as: at or after
`start`, the first index of the base name) and at least one character in
`[start, dotIdx)` is not a dot — so purely-leading dots of the base name
never start an extension. -/
def splitext (p : List Char) : List Char × List Char :=
  match rlast '.' p with
  | none => (p, [])
  | some d =>
    let start : Nat := match rlast '/' p with | some s => s + 1 | none => 0
    if start ≤ d then
      if (List.range' start (d - start)).any (fun i => !(p.getD i '.' == '.')) then
        (p.take d, p.drop d)
      else (p, [])
    else (p, [])

/-- `os.path.splitext(name)[0]` as used by `main` (line 252). -/
def baseOf (name : String) : String :=
  ⟨(splitext name.data).1⟩

/-- The uploaded output's name, `f"{base}__MIX__PRO.mp4"` (line 253). -/
def out_name (name : String) : String :=
  baseOf name ++ "__MIX__PRO.mp4"

/-- The processed rename target, `f"{base}{PROCESSED_TAG}.mp4"` (line 258). -/
def new_in_name (name : String) : String :=
  baseOf name ++ PROCESSED_TAG ++ ".mp4"

/-! ## The generation call: result shapes, normalization, retry loop -/

/-- The shapes `call_wan2_2` inspects in a `client.predict` result: a
string, a sequence (list/tuple), a mapping, or anything else. -/
inductive PyVal where
  | str (s : String)
  | list (xs : List PyVal)
  | dict (kvs : List (String × PyVal))
  | other

/-- Errors observable inside `call_wan2_2`: an exception raised by
`client.predict` itself (transport/queue error, carried as a message), or
the `RuntimeError("Unexpected HF output type ...")` raised when a result
cannot be normalized to a local path. -/
inductive GenErr where
  | callFail (msg : String)
  | unexpected (r : PyVal)

/-- `isinstance(v, str) and os.path.exists(v)`, with `os.path.exists`
abstracted as the oracle `ex`. -/
def strHit (ex : String → Bool) : PyVal → Option String
  | .str s => if ex s then some s else none
  | _ => none

/-- The dict probe `v = result.get(k)` followed by
`isinstance(v, str) and os.path.exists(v)`. -/
def dictHit (ex : String → Bool) (kvs : List (String × PyVal)) (k : String) :
    Option String :=
  match kvs.lookup k with
  | some v => strHit ex v
  | none => none

/-- The result normalization of `call_wan2_2` (lines 170-188) as a pure
function: `some path` where the code would `return path`, `none` where it
falls through to `raise RuntimeError("Unexpected HF output type ...")`. -/
def normalizeResult (ex : String → Bool) : PyVal → Option String
  | .str s => if ex s then some s else none
  | .list xs => xs.findSome? (strHit ex)
  | .dict kvs => ["video", "path", "output", "file"].findSome? (dictHit ex kvs)
  | .other => none

/-- One iteration body of the retry loop: the `client.predict` call
(oracle `predict`, indexed by the attempt number) followed by
normalization; `.error` collects every exception the `except` clause
would catch on this attempt. -/
def attemptOnce (ex : String → Bool) (predict : Nat → Except GenErr PyVal)
    (attempt : Nat) : Except GenErr String :=
  match predict attempt with
  | .error e => .error e
  | .ok r =>
    match normalizeResult ex r with
    | some p => .ok p
    | none => .error (.unexpected r)

/-- The observable outcome of `call_wan2_2`: the returned path or the
final `RuntimeError` (carrying `last_err`, `none` when no attempt ran),
the list of `time.sleep` durations in order, and the number of
`client.predict` calls made. -/
structure CallOutcome where
  result : Except (Option GenErr) String
  sleeps : List Nat
  attempts : Nat

/-- The `for attempt in range(1, retries + 1)` loop of `call_wan2_2`,
by remaining fuel: on success return immediately; on any exception record
it as `last_err`, sleep `min(60, 5 * attempt)`, and continue. -/
def callLoop (ex : String → Bool) (predict : Nat → Except GenErr PyVal) :
    Nat → Nat → Option GenErr → CallOutcome
  | 0, _, lastErr => ⟨.error lastErr, [], 0⟩
  | n + 1, attempt, _ =>
    match attemptOnce ex predict attempt with
    | .ok p => ⟨.ok p, [], 1⟩
    | .error e =>
      let rest := callLoop ex predict n (attempt + 1) (some e)
      ⟨rest.result, min 60 (5 * attempt) :: rest.sleeps, rest.attempts + 1⟩

/-- `call_wan2_2(client, api_name, image_path, video_path, retries)`
(lines 155-196), with the remote call and the filesystem as oracles. -/
def call_wan2_2 (ex : String → Bool) (predict : Nat → Except GenErr PyVal)
    (retries : Nat := 5) : CallOutcome :=
  callLoop ex predict retries 1 none

/-! ## Endpoint resolution (`find_best_api_name`, lines 126-152) -/

/-- `find_best_api_name(client)`: `viewApi` is the outcome of
`client.view_api(all_endpoints=True)`, reduced to the association list of
named endpoints with their declared parameter counts, in dict order
(a non-dict reply or a missing `named_endpoints` key is the empty list).
On an exception, or when there are no endpoints, return `"/predict"`;
otherwise the first endpoint with exactly 4 parameters, else the first
endpoint. -/
def find_best_api_name (viewApi : Except Unit (List (String × Nat))) : String :=
  match viewApi with
  | .error _ => "/predict"
  | .ok [] => "/predict"
  | .ok (e :: rest) =>
    match (e :: rest).find? (fun p => p.2 == 4) with
    | some best => best.1
    | none => e.1

/-! ## The size gate and the per-item loop of `main` (lines 235-260) -/

/-- `int(f.get("size") or 0)`. -/
def declaredSize (f : RemoteFile) : Nat :=
  (f.size).getD 0

/-- `size_mb = size / (1024 * 1024) if size else 0`, over exact rationals
(the Python float division by `2^20` is exact for every realistic size,
in particular everywhere near the threshold). -/
def size_mb (f : RemoteFile) : ℚ :=
  if declaredSize f ≠ 0 then (declaredSize f : ℚ) / (1024 * 1024) else 0

/-- The size gate `if size_mb and size_mb > MAX_VIDEO_MB: continue`. -/
def skipsItem (f : RemoteFile) : Bool :=
  decide (size_mb f ≠ 0) && decide ((MAX_VIDEO_MB : ℚ) < size_mb f)

/-- The remote side effects performed for one work item, in order, each
recorded only once the corresponding call has succeeded. -/
inductive Event where
  | skipped (name : String)
  | downloaded (fileId : String)
  | generated (localPath : String)
  | uploaded (outName : String)
  | renamed (fileId : String) (newName : String)
deriving DecidableEq

/-- A run-level error: any exception that aborts `main`'s loop (download
failure, `call_wan2_2`'s final `RuntimeError` carrying the last error,
upload failure, rename failure). -/
inductive RunErr where
  | dlFail (msg : String)
  | genFail (lastErr : Option GenErr)
  | upFail (msg : String)
  | rnFail (msg : String)

/-- The outcomes of the remote calls made for one item: `download_file`,
`client.predict` (per attempt), `upload_file_to_folder` (returning the
created id), `rename_file`. -/
structure ItemOracles where
  dl : Except String Unit
  predict : Nat → Except GenErr PyVal
  up : Except String String
  rn : Except String Unit

/-- One iteration of `main`'s per-item loop (lines 235-260): size gate,
download, `call_wan2_2` (5 attempts), upload under `out_name`, then — only
then — rename to `new_in_name`.  Returns the propagated exception, if any,
and the ordered trace of completed effects. -/
def processItem (ex : String → Bool) (o : ItemOracles) (f : RemoteFile) :
    Except RunErr Unit × List Event :=
  if skipsItem f then (.ok (), [.skipped f.name])
  else
    match o.dl with
    | .error m => (.error (.dlFail m), [])
    | .ok _ =>
      match (call_wan2_2 ex o.predict 5).result with
      | .error le => (.error (.genFail le), [.downloaded f.id])
      | .ok outLocal =>
        match o.up with
        | .error m => (.error (.upFail m), [.downloaded f.id, .generated outLocal])
        | .ok _ =>
          match o.rn with
          | .error m =>
            (.error (.rnFail m),
              [.downloaded f.id, .generated outLocal, .uploaded (out_name f.name)])
          | .ok _ =>
            (.ok (),
              [.downloaded f.id, .generated outLocal, .uploaded (out_name f.name),
                .renamed f.id (new_in_name f.name)])

/-- `main`'s loop over the discovered queue: items are processed in order
and the first propagated exception aborts the remaining queue. -/
def runItems (ex : String → Bool) :
    List (RemoteFile × ItemOracles) → Except RunErr Unit × List Event
  | [] => (.ok (), [])
  | (f, o) :: rest =>
    match processItem ex o f with
    | (.ok _, tr) =>
      let r := runItems ex rest
      (r.1, tr ++ r.2)
    | (.error e, tr) => (.error e, tr)

/-! ## Helper lemmas about `subDisallowed` and `stripUnderscore` -/

theorem mem_subDisallowed {c : Char} :
    ∀ (b : Bool) (l : List Char), c ∈ subDisallowed b l → allowedChar c = true := by
  intro b l
  induction l generalizing b with
  | nil => simp [subDisallowed]
  | cons a rest ih =>
    intro h
    simp only [subDisallowed] at h
    by_cases ha : allowedChar a
    · rw [if_pos ha] at h
      rcases List.mem_cons.mp h with rfl | h
      · exact ha
      · exact ih false h
    · rw [if_neg ha] at h
      cases b with
      | true => exact ih true (by simpa using h)
      | false =>
        rcases List.mem_cons.mp (by simpa using h) with rfl | h
        · decide
        · exact ih true h

theorem mem_stripUnderscore {c : Char} {l : List Char} (h : c ∈ stripUnderscore l) :
    c ∈ l := by
  unfold stripUnderscore at h
  rw [List.mem_reverse] at h
  have h2 := (List.dropWhile_sublist (l := (l.dropWhile (· == '_')).reverse)
    (p := (· == '_'))).subset h
  rw [List.mem_reverse] at h2
  exact (List.dropWhile_sublist (l := l) (p := (· == '_'))).subset h2

theorem head?_dropWhile (p : Char → Bool) :
    ∀ (l : List Char) (c : Char), (l.dropWhile p).head? = some c → p c = false := by
  intro l
  induction l with
  | nil => simp
  | cons a rest ih =>
    intro c h
    rw [List.dropWhile_cons] at h
    by_cases hp : p a
    · rw [if_pos hp] at h
      exact ih c h
    · rw [if_neg hp] at h
      simp only [List.head?_cons, Option.some.injEq] at h
      subst h
      exact Bool.eq_false_iff.mpr hp

theorem getLast?_dropWhile_of_ne_nil (p : Char → Bool) :
    ∀ l : List Char, l.dropWhile p ≠ [] → (l.dropWhile p).getLast? = l.getLast? := by
  intro l
  induction l with
  | nil => simp
  | cons a rest ih =>
    intro h
    rw [List.dropWhile_cons] at h ⊢
    by_cases hp : p a
    · rw [if_pos hp] at h ⊢
      have hrest : rest ≠ [] := by
        rintro rfl
        simp at h
      rw [ih h]
      cases rest with
      | nil => exact absurd rfl hrest
      | cons b t => rw [List.getLast?_cons_cons]
    · rw [if_neg hp]

theorem stripUnderscore_head {l : List Char} {c : Char}
    (h : (stripUnderscore l).head? = some c) : (c == '_') = false := by
  unfold stripUnderscore at h
  rw [List.head?_reverse] at h
  have hne : ((l.dropWhile (· == '_')).reverse.dropWhile (· == '_')) ≠ [] := by
    rintro he
    rw [he] at h
    simp at h
  rw [getLast?_dropWhile_of_ne_nil _ _ hne, List.getLast?_reverse] at h
  exact head?_dropWhile (· == '_') _ _ h

theorem stripUnderscore_last {l : List Char} {c : Char}
    (h : (stripUnderscore l).getLast? = some c) : (c == '_') = false := by
  unfold stripUnderscore at h
  rw [List.getLast?_reverse] at h
  exact head?_dropWhile (· == '_') _ _ h

theorem subDisallowed_id :
    ∀ (b : Bool) (l : List Char), (∀ c ∈ l, allowedChar c = true) →
      subDisallowed b l = l := by
  intro b l
  induction l generalizing b with
  | nil => simp [subDisallowed]
  | cons a rest ih =>
    intro h
    have ha : allowedChar a = true := h a (List.mem_cons_self _ _)
    simp only [subDisallowed, if_pos ha]
    rw [ih false (fun c hc => h c (List.mem_cons_of_mem _ hc))]

theorem dropWhile_eq_self_of_head (p : Char → Bool) (l : List Char)
    (h : ∀ c, l.head? = some c → p c = false) : l.dropWhile p = l := by
  cases l with
  | nil => rfl
  | cons a rest =>
    rw [List.dropWhile_cons, if_neg (by simp [h a rfl])]

theorem stripUnderscore_id (l : List Char)
    (h1 : ∀ c, l.head? = some c → (c == '_') = false)
    (h2 : ∀ c, l.getLast? = some c → (c == '_') = false) :
    stripUnderscore l = l := by
  unfold stripUnderscore
  rw [dropWhile_eq_self_of_head _ _ h1]
  rw [dropWhile_eq_self_of_head _ _ (fun c hc => h2 c (by rwa [List.head?_reverse] at hc))]
  exact List.reverse_reverse l

theorem subDisallowed_all_bad :
    ∀ l : List Char, (∀ c ∈ l, allowedChar c = false) →
      subDisallowed true l = [] ∧
        subDisallowed false l = if l.isEmpty then [] else ['_'] := by
  intro l
  induction l with
  | nil => simp [subDisallowed]
  | cons a rest ih =>
    intro h
    have ha : allowedChar a = false := h a (List.mem_cons_self _ _)
    have ihr := ih (fun c hc => h c (List.mem_cons_of_mem _ hc))
    refine ⟨?_, ?_⟩
    · rw [show subDisallowed true (a :: rest) = subDisallowed true rest by
        simp [subDisallowed, ha]]
      exact ihr.1
    · rw [show subDisallowed false (a :: rest) = '_' :: subDisallowed true rest by
        simp [subDisallowed, ha]]
      rw [ihr.1]
      simp

/-- **C10.** `safe_filename` is idempotent, its output uses only characters
from `[a-zA-Z0-9._-]` and never begins or ends with an underscore, and an
input with no allowed character at all maps to the empty string. -/
theorem safe_filename_spec (s : String) :
    safe_filename (safe_filename s) = safe_filename s
  ∧ (∀ c ∈ (safe_filename s).data, allowedChar c = true)
  ∧ (∀ c, (safe_filename s).data.head? = some c → c ≠ '_')
  ∧ (∀ c, (safe_filename s).data.getLast? = some c → c ≠ '_')
  ∧ ((∀ c ∈ s.data, allowedChar c = false) → safe_filename s = "") := by
  have hdata : (safe_filename s).data = stripUnderscore (subDisallowed false s.data) := rfl
  have hmem : ∀ c ∈ (safe_filename s).data, allowedChar c = true := by
    intro c hc
    rw [hdata] at hc
    exact mem_subDisallowed false _ (mem_stripUnderscore hc)
  refine ⟨?_, hmem, ?_, ?_, ?_⟩
  · show (⟨stripUnderscore (subDisallowed false (safe_filename s).data)⟩ : String) = safe_filename s
    rw [subDisallowed_id false _ hmem]
    rw [hdata, stripUnderscore_id _ (fun c hc => stripUnderscore_head hc)
      (fun c hc => stripUnderscore_last hc)]
    rfl
  · intro c hc
    rw [hdata] at hc
    simpa using stripUnderscore_head hc
  · intro c hc
    rw [hdata] at hc
    simpa using stripUnderscore_last hc
  · intro hbad
    have h := (subDisallowed_all_bad s.data hbad).2
    show (⟨stripUnderscore (subDisallowed false s.data)⟩ : String) = ""
    rw [h]
    cases he : s.data.isEmpty
    · rw [if_neg (by simp [he])]
      decide
    · rw [if_pos (by simp [he])]
      decide

/-- Witness for C10 at concrete inputs. -/
theorem safe_filename_spec_witness :
    safe_filename "###" = "" ∧ 'a' ≠ '_' :=
  ⟨(safe_filename_spec "###").2.2.2.2 (by decide),
   (safe_filename_spec "##a##").2.2.1 'a' (by rfl)⟩

/-! ## C9: the size gate -/

/-- **C9.** An item whose declared size is absent or zero is never skipped
by the size gate; an item is skipped exactly when its declared size is
positive and strictly greater than the `MAX_VIDEO_MB` ceiling. -/
theorem size_gate_spec (f : RemoteFile) :
    ((f.size = none ∨ f.size = some 0) → skipsItem f = false)
  ∧ (skipsItem f = true ↔
      0 < declaredSize f ∧ MAX_VIDEO_MB * (1024 * 1024) < declaredSize f) := by
  constructor
  · rintro (h | h) <;> simp [skipsItem, size_mb, declaredSize, h]
  · by_cases h : declaredSize f = 0
    · simp [skipsItem, size_mb, h]
    · have hpos : 0 < declaredSize f := Nat.pos_of_ne_zero h
      have hmb : size_mb f = (declaredSize f : ℚ) / (1024 * 1024) := by
        simp [size_mb, h]
      have hne : size_mb f ≠ 0 := by
        rw [hmb]
        have : (0 : ℚ) < declaredSize f := by exact_mod_cast hpos
        positivity
      have hne2 : (declaredSize f : ℚ) / (1024 * 1024) ≠ 0 := hmb ▸ hne
      rw [show skipsItem f =
          (decide (size_mb f ≠ 0) && decide ((MAX_VIDEO_MB : ℚ) < size_mb f)) from rfl]
      rw [Bool.and_eq_true, decide_eq_true_eq, decide_eq_true_eq, hmb]
      constructor
      · rintro ⟨-, hlt⟩
        refine ⟨hpos, ?_⟩
        rw [lt_div_iff₀ (by norm_num : (0 : ℚ) < 1024 * 1024)] at hlt
        exact_mod_cast hlt
      · rintro ⟨-, hlt⟩
        refine ⟨hne2, ?_⟩
        rw [lt_div_iff₀ (by norm_num : (0 : ℚ) < 1024 * 1024)]
        exact_mod_cast hlt

/-- Witness for C9: a 300 MB item is skipped, an item with no declared
size is not. -/
theorem size_gate_witness :
    skipsItem ⟨"id1", "big.mp4", "video/mp4", none, none, some 300000000, false⟩ = true
  ∧ skipsItem ⟨"id2", "nosize.mp4", "video/mp4", none, none, none, false⟩ = false :=
  ⟨(size_gate_spec _).2.mpr (by constructor <;> decide),
   (size_gate_spec _).1 (Or.inl rfl)⟩

/-! ## C8: endpoint resolution -/

theorem find?_first {α : Type} (p : α → Bool) :
    ∀ (l : List α) (k : Nat) (hk : k < l.length),
      p (l.get ⟨k, hk⟩) = true →
      (∀ (j : Nat) (hj : j < l.length), j < k → p (l.get ⟨j, hj⟩) = false) →
      l.find? p = some (l.get ⟨k, hk⟩) := by
  intro l
  induction l with
  | nil =>
    intro k hk
    exact absurd hk (by simp)
  | cons a rest ih =>
    intro k hk hp hmin
    cases k with
    | zero => exact List.find?_cons_of_pos _ hp
    | succ k' =>
      have ha : p a = false := hmin 0 (by simp) (by omega)
      rw [List.find?_cons_of_neg _ (by simp [ha])]
      exact ih k' (by simpa using hk) hp
        (fun j hj hjk => hmin (j + 1) (by simpa using hj) (by omega))

/-- **C8.** `find_best_api_name` returns the first endpoint whose declared
parameter count is 4; if none matches, the first endpoint in the
descriptor; if the descriptor query fails (or lists no endpoints), the
fixed default `"/predict"`. -/
theorem find_best_api_name_spec :
    find_best_api_name (.error ()) = "/predict"
  ∧ find_best_api_name (.ok []) = "/predict"
  ∧ (∀ (eps : List (String × Nat)) (k : Nat) (hk : k < eps.length),
      (eps.get ⟨k, hk⟩).2 = 4 →
      (∀ (j : Nat) (hj : j < eps.length), j < k → (eps.get ⟨j, hj⟩).2 ≠ 4) →
      find_best_api_name (.ok eps) = (eps.get ⟨k, hk⟩).1)
  ∧ (∀ (e : String × Nat) (rest : List (String × Nat)),
      (∀ q ∈ e :: rest, q.2 ≠ 4) → find_best_api_name (.ok (e :: rest)) = e.1) := by
  refine ⟨rfl, rfl, ?_, ?_⟩
  · intro eps k hk hp hmin
    cases eps with
    | nil => exact absurd hk (by simp)
    | cons e rest =>
      have hf : (e :: rest).find? (fun q => q.2 == 4) = some ((e :: rest).get ⟨k, hk⟩) :=
        find?_first _ _ k hk (by simpa using hp) (fun j hj hjk => by simpa using hmin j hj hjk)
      show (match (e :: rest).find? (fun q => q.2 == 4) with
            | some best => best.1
            | none => e.1) = ((e :: rest).get ⟨k, hk⟩).1
      rw [hf]
  · intro e rest hnone
    have hf : (e :: rest).find? (fun q => q.2 == 4) = none := by
      rw [List.find?_eq_none]
      intro q hq
      simpa using hnone q hq
    show (match (e :: rest).find? (fun q => q.2 == 4) with
          | some best => best.1
          | none => e.1) = e.1
    rw [hf]

/-- Witness for C8 at concrete descriptors. -/
theorem find_best_api_name_witness :
    find_best_api_name (.ok [("/a", 3), ("/b", 4), ("/c", 4)]) = "/b"
  ∧ find_best_api_name (.ok [("/a", 3), ("/c", 5)]) = "/a" := by
  constructor
  · exact find_best_api_name_spec.2.2.1 [("/a", 3), ("/b", 4), ("/c", 4)] 1 (by decide)
      (by decide) (fun j hj hjk => by
        have hj0 : j = 0 := by omega
        subst hj0
        show (("/a", 3) : String × Nat).2 ≠ 4
        decide)
  · exact find_best_api_name_spec.2.2.2 ("/a", 3) [("/c", 5)] (by decide)

/-! ## C3: result normalization -/

theorem strHit_eq_some {ex : String → Bool} {v : PyVal} {p : String} :
    strHit ex v = some p ↔ v = .str p ∧ ex p = true := by
  cases v with
  | str s =>
    simp only [strHit]
    by_cases h : ex s
    · simp only [if_pos h]
      constructor
      · rintro ⟨rfl⟩
        exact ⟨rfl, h⟩
      · rintro ⟨hs, -⟩
        cases hs
        rfl
    · simp only [if_neg h]
      constructor
      · rintro ⟨⟩
      · rintro ⟨hs, hp⟩
        cases hs
        exact absurd hp h
  | list xs => simp [strHit]
  | dict kvs => simp [strHit]
  | other => simp [strHit]

/-- **C3.** Result normalization: a string naming an existing local file
maps to that path; a sequence maps to its first element that is a string
naming an existing local file; a mapping maps to the first value under the
keys `video`, `path`, `output`, `file` (in that order) that is a string
naming an existing local file; every other shape — a non-string
non-sequence non-mapping value, a string that is not an existing local
file (e.g. a remote URL), an empty mapping, or a sequence/mapping with no
existing local path — normalizes to `none` (the
`UnsupportedResultShape` failure). -/
theorem normalize_result_spec (ex : String → Bool) :
    (∀ s, normalizeResult ex (.str s) = if ex s then some s else none)
  ∧ (∀ xs p, normalizeResult ex (.list xs) = some p ↔
      ∃ l1 x l2, xs = l1 ++ x :: l2 ∧ x = .str p ∧ ex p = true ∧
        ∀ y ∈ l1, strHit ex y = none)
  ∧ (∀ kvs p, normalizeResult ex (.dict kvs) = some p ↔
      ∃ ks k ks2, (["video", "path", "output", "file"] : List String) = ks ++ k :: ks2 ∧
        dictHit ex kvs k = some p ∧ ∀ k2 ∈ ks, dictHit ex kvs k2 = none)
  ∧ normalizeResult ex .other = none
  ∧ normalizeResult ex (.dict []) = none
  ∧ (∀ xs, (∀ x ∈ xs, strHit ex x = none) → normalizeResult ex (.list xs) = none)
  ∧ (∀ kvs, (∀ k, dictHit ex kvs k = none) → normalizeResult ex (.dict kvs) = none)
  ∧ (∀ s, ex s = false → normalizeResult ex (.str s) = none) := by
  refine ⟨fun s => rfl, ?_, ?_, rfl, rfl, ?_, ?_, ?_⟩
  · intro xs p
    show xs.findSome? (strHit ex) = some p ↔ _
    rw [List.findSome?_eq_some_iff]
    constructor
    · rintro ⟨l1, x, l2, rfl, hx, hnone⟩
      obtain ⟨rfl, hex⟩ := strHit_eq_some.mp hx
      exact ⟨l1, _, l2, rfl, rfl, hex, hnone⟩
    · rintro ⟨l1, x, l2, rfl, rfl, hex, hnone⟩
      exact ⟨l1, _, l2, rfl, strHit_eq_some.mpr ⟨rfl, hex⟩, hnone⟩
  · intro kvs p
    show (["video", "path", "output", "file"].findSome? (dictHit ex kvs)) = some p ↔ _
    rw [List.findSome?_eq_some_iff]
  · intro xs h
    show xs.findSome? (strHit ex) = none
    exact List.findSome?_eq_none_iff.mpr h
  · intro kvs h
    show (["video", "path", "output", "file"].findSome? (dictHit ex kvs)) = none
    exact List.findSome?_eq_none_iff.mpr (fun k _ => h k)
  · intro s h
    show (if ex s then some s else none) = none
    rw [if_neg (by simp [h])]

/-- `os.path.exists` oracle for the C3 witness: only `/tmp/out.mp4`
exists locally. -/
def exHit : String → Bool := (· == "/tmp/out.mp4")

/-- Witness for C3: a two-element sequence whose second element is the
existing local file, and a mapping reached through the key `path`. -/
theorem normalize_result_witness :
    normalizeResult exHit (.list [.str "http://x", .str "/tmp/out.mp4"]) = some "/tmp/out.mp4"
  ∧ normalizeResult exHit
      (.dict [("other", .str "/x"), ("path", .str "/tmp/out.mp4")]) = some "/tmp/out.mp4" := by
  constructor
  · refine ((normalize_result_spec exHit).2.1 _ _).mpr
      ⟨[.str "http://x"], .str "/tmp/out.mp4", [], rfl, rfl, rfl, ?_⟩
    intro y hy
    rw [List.mem_singleton] at hy
    subst hy
    rfl
  · refine ((normalize_result_spec exHit).2.2.1 _ _).mpr
      ⟨["video"], "path", ["output", "file"], rfl, rfl, ?_⟩
    intro k2 hk2
    rw [List.mem_singleton] at hk2
    subst hk2
    rfl

/-! ## C2 and C4: the retry loop -/

theorem callLoop_ok (ex : String → Bool) (predict : Nat → Except GenErr PyVal)
    (errs : Nat → GenErr) (v : String) :
    ∀ (k n start : Nat) (lastErr : Option GenErr), k < n →
      (∀ a, start ≤ a → a < start + k → attemptOnce ex predict a = .error (errs a)) →
      attemptOnce ex predict (start + k) = .ok v →
      callLoop ex predict n start lastErr =
        ⟨.ok v, (List.range' start k).map (fun a => min 60 (5 * a)), k + 1⟩ := by
  intro k
  induction k with
  | zero =>
    intro n start lastErr hk hfail hok
    obtain ⟨m, rfl⟩ : ∃ m, n = m + 1 := ⟨n - 1, by omega⟩
    rw [show start + 0 = start from rfl] at hok
    simp [callLoop, hok]
  | succ k ih =>
    intro n start lastErr hk hfail hok
    obtain ⟨m, rfl⟩ : ∃ m, n = m + 1 := ⟨n - 1, by omega⟩
    have hstart : attemptOnce ex predict start = .error (errs start) :=
      hfail start (le_refl _) (by omega)
    simp only [callLoop, hstart]
    rw [ih m (start + 1) (some (errs start)) (by omega)
      (fun a ha1 ha2 => hfail a (by omega) (by omega))
      (by rw [show start + 1 + k = start + (k + 1) by omega]; exact hok)]
    simp [List.range'_succ]

theorem callLoop_fail (ex : String → Bool) (predict : Nat → Except GenErr PyVal)
    (errs : Nat → GenErr) :
    ∀ (n start : Nat) (lastErr : Option GenErr), 1 ≤ n →
      (∀ a, start ≤ a → a < start + n → attemptOnce ex predict a = .error (errs a)) →
      callLoop ex predict n start lastErr =
        ⟨.error (some (errs (start + n - 1))),
          (List.range' start n).map (fun a => min 60 (5 * a)), n⟩ := by
  intro n
  induction n with
  | zero =>
    intro start lastErr h
    exact absurd h (by omega)
  | succ m ih =>
    intro start lastErr h hfail
    have hstart : attemptOnce ex predict start = .error (errs start) :=
      hfail start (le_refl _) (by omega)
    simp only [callLoop, hstart]
    rcases Nat.eq_zero_or_pos m with hm | hm
    · subst hm
      simp only [callLoop]
      rw [show start + 1 - 1 = start by omega]
      simp [List.range']
    · rw [ih (start + 1) (some (errs start)) hm
        (fun a h1 h2 => hfail a (by omega) (by omega))]
      rw [show start + 1 + m - 1 = start + (m + 1) - 1 by omega]
      simp [List.range'_succ]

/-- **C2.** If the first `N` attempts of the generation call fail
(`N < retries`) and attempt `N + 1` succeeds with value `v`, then
`call_wan2_2` returns `v` after exactly `N` backoff sleeps of duration
`min(60, 5 * attempt)` for `attempt = 1..N` (and `N + 1` attempts in
total); if every attempt fails, `call_wan2_2` raises after exactly
`retries` attempts and no more, carrying the error observed on the last
attempt. -/
theorem invoke_retry_spec (ex : String → Bool) (predict : Nat → Except GenErr PyVal)
    (retries N : Nat) (v : String) (errs : Nat → GenErr) :
    (N < retries →
      (∀ a, 1 ≤ a → a ≤ N → attemptOnce ex predict a = .error (errs a)) →
      attemptOnce ex predict (N + 1) = .ok v →
      call_wan2_2 ex predict retries =
        ⟨.ok v, (List.range' 1 N).map (fun a => min 60 (5 * a)), N + 1⟩)
  ∧ (1 ≤ retries →
      (∀ a, 1 ≤ a → a ≤ retries → attemptOnce ex predict a = .error (errs a)) →
      (call_wan2_2 ex predict retries).result = .error (some (errs retries)) ∧
      (call_wan2_2 ex predict retries).attempts = retries ∧
      (call_wan2_2 ex predict retries).sleeps =
        (List.range' 1 retries).map (fun a => min 60 (5 * a))) := by
  constructor
  · intro hN hfail hok
    exact callLoop_ok ex predict errs v N retries 1 none hN
      (fun a h1 h2 => hfail a h1 (by omega))
      (by rw [show 1 + N = N + 1 by omega]; exact hok)
  · intro hr hfail
    rw [call_wan2_2, callLoop_fail ex predict errs retries 1 none hr
      (fun a h1 h2 => hfail a h1 (by omega))]
    rw [show 1 + retries - 1 = retries by omega]
    exact ⟨rfl, rfl, rfl⟩

/-- `os.path.exists` oracle for the C2 witness. -/
def exTrue : String → Bool := fun _ => true

/-- Generation oracle for the C2 witness: attempt 1 raises a queue error,
attempt 2 returns a string path. -/
def predictW2 : Nat → Except GenErr PyVal := fun a =>
  if a = 1 then .error (.callFail "queue full") else .ok (.str "/tmp/out.mp4")

def errsW2 : Nat → GenErr := fun _ => .callFail "queue full"

/-- Witness for C2: one failure then success gives one 5-unit sleep and
two attempts. -/
theorem invoke_retry_witness :
    call_wan2_2 exTrue predictW2 5 = ⟨.ok "/tmp/out.mp4", [5], 2⟩ :=
  (invoke_retry_spec exTrue predictW2 5 1 "/tmp/out.mp4" errsW2).1 (by omega)
    (fun a h1 h2 => by
      have ha : a = 1 := by omega
      subst ha
      rfl)
    rfl

/-- `os.path.exists` oracle under which nothing exists locally. -/
def exNone : String → Bool := fun _ => false

/-- Generation oracle whose every attempt "succeeds" with an unparseable
result (an empty mapping). -/
def predictUnparsed : Nat → Except GenErr PyVal := fun _ => .ok (.dict [])

/-- **C4, counterexample.** When every generation attempt returns
successfully but unparseably, `call_wan2_2` performs all 5 remote attempts
and 5 backoff sleeps before failing — refuting the claim that an
unparseable result is fatal without further remote attempts or backoff
sleeps. -/
theorem unparseable_fatal_counterexample :
    (call_wan2_2 exNone predictUnparsed 5).attempts = 5
  ∧ (call_wan2_2 exNone predictUnparsed 5).sleeps = [5, 10, 15, 20, 25]
  ∧ (call_wan2_2 exNone predictUnparsed 5).result =
      .error (some (.unexpected (.dict [])))
  ∧ ¬((call_wan2_2 exNone predictUnparsed 5).attempts = 1
      ∧ (call_wan2_2 exNone predictUnparsed 5).sleeps = []) :=
  ⟨rfl, rfl, rfl, fun h => absurd h.1 (by decide)⟩

/-- **C4, amended.** A successful generation attempt whose result is
unparseable raises inside the `try` block and is therefore caught and
retried with backoff like any remote-call failure: if every attempt
yields the unparseable result `r`, `call_wan2_2` performs all `retries`
attempts with the full backoff schedule and only then fails, carrying the
`UnsupportedResultShape`-style error for `r` as the last observed error
(so the failure still surfaces as a `GenerationFailure`-equivalent, but
only after the retry path). -/
theorem unparseable_retried (ex : String → Bool) (predict : Nat → Except GenErr PyVal)
    (retries : Nat) (r : PyVal) (h1 : 1 ≤ retries)
    (h2 : ∀ a, 1 ≤ a → a ≤ retries → predict a = .ok r)
    (h3 : normalizeResult ex r = none) :
    call_wan2_2 ex predict retries =
      ⟨.error (some (.unexpected r)),
        (List.range' 1 retries).map (fun a => min 60 (5 * a)), retries⟩ := by
  have hfail : ∀ a, 1 ≤ a → a < 1 + retries →
      attemptOnce ex predict a = .error (.unexpected r) := by
    intro a ha1 ha2
    rw [attemptOnce, h2 a ha1 (by omega)]
    simp [h3]
  rw [call_wan2_2, callLoop_fail ex predict (fun _ => .unexpected r) retries 1 none h1 hfail]

/-- Witness for the amended C4 with 2 attempts. -/
theorem unparseable_retried_witness :
    call_wan2_2 exNone predictUnparsed 2 =
      ⟨.error (some (.unexpected (.dict []))), [5, 10], 2⟩ :=
  unparseable_retried exNone predictUnparsed 2 (.dict []) (by omega)
    (fun a h1 h2 => rfl) rfl

/-! ## C5: queue discovery -/

/-- **C5.** `listUnprocessedVideos` returns exactly the non-trashed
`video/`-mime items whose name does not contain the processing marker
(as a permutation witnessing "exactly these items"), sorted ascending by
`modifiedTime` with fallback to `createdTime` (and then `""`) when absent;
`is_processed name` holds iff `name` contains the marker substring; the
result may be empty (it is empty on an empty store). -/
theorem listUnprocessedVideos_spec (store : List RemoteFile) :
    (listUnprocessedVideos store).Perm
      (store.filter fun f =>
        !is_processed f.name && (!f.trashed && containsSub "video/".data f.mimeType.data))
  ∧ (listUnprocessedVideos store).Pairwise (fun a b => sortKey a ≤ sortKey b)
  ∧ (∀ name : String, is_processed name = true ↔
      ∃ s t, name.data = s ++ PROCESSED_TAG.data ++ t)
  ∧ listUnprocessedVideos [] = [] := by
  refine ⟨?_, ?_, ?_, ?_⟩
  · have h1 := List.mergeSort_perm
      ((list_files_in_folder store (some "video/")).filter (fun f => !is_processed f.name))
      (fun a b => decide (sortKey a ≤ sortKey b))
    refine h1.trans ?_
    rw [list_files_in_folder, List.filter_filter]
  · have hs := @List.sorted_mergeSort RemoteFile
      (fun a b : RemoteFile => decide (sortKey a ≤ sortKey b))
      (fun a b c h1 h2 => by
        simp only [decide_eq_true_eq] at *
        exact le_trans h1 h2)
      (fun a b => by
        simp only [Bool.or_eq_true, decide_eq_true_eq]
        exact le_total (sortKey a) (sortKey b))
      ((list_files_in_folder store (some "video/")).filter (fun f => !is_processed f.name))
    exact hs.imp (fun h => of_decide_eq_true h)
  · intro name
    exact containsSub_iff PROCESSED_TAG.data name.data
  · show ((list_files_in_folder [] (some "video/")).filter
        (fun f => !is_processed f.name)).mergeSort
        (fun a b => decide (sortKey a ≤ sortKey b)) = []
    rw [show (list_files_in_folder ([] : List RemoteFile) (some "video/")).filter
        (fun f => !is_processed f.name) = [] from rfl]
    exact List.mergeSort_nil

/-- Witness for C5: the marker-containment characterization at concrete
names, through the theorem. -/
theorem listUnprocessedVideos_witness :
    is_processed "clip__PROCESSED.mp4" = true
  ∧ listUnprocessedVideos [] = [] :=
  ⟨((listUnprocessedVideos_spec []).2.2.1 "clip__PROCESSED.mp4").mpr
      ⟨"clip".data, ".mp4".data, by decide⟩,
   (listUnprocessedVideos_spec []).2.2.2⟩

/-! ## C6: reference-image selection -/

/-- **C6.** `pick_latest_image` returns `none` exactly when there is no
non-hidden image-mime candidate, and otherwise returns a candidate whose
`modifiedTime ?? createdTime` (read through any interpretation `parseDt`
of timestamp strings) is maximal among all candidates. -/
theorem pick_latest_image_spec (parseDt : String → Nat) (files : List RemoteFile) :
    (pick_latest_image parseDt files = none ↔ imageCandidates files = [])
  ∧ (∀ f, pick_latest_image parseDt files = some f →
      f ∈ imageCandidates files ∧
      ∀ g ∈ imageCandidates files, parse_dt parseDt g ≤ parse_dt parseDt f) := by
  have hperm := List.mergeSort_perm (imageCandidates files)
    (fun a b => decide (parse_dt parseDt b ≤ parse_dt parseDt a))
  have hsorted := @List.sorted_mergeSort RemoteFile
    (fun a b : RemoteFile => decide (parse_dt parseDt b ≤ parse_dt parseDt a))
    (fun a b c h1 h2 => by
      simp only [decide_eq_true_eq] at *
      exact le_trans h2 h1)
    (fun a b => by
      simp only [Bool.or_eq_true, decide_eq_true_eq]
      exact (le_total (parse_dt parseDt b) (parse_dt parseDt a)).imp id id)
    (imageCandidates files)
  constructor
  · rw [pick_latest_image, List.head?_eq_none_iff]
    constructor
    · intro h
      rw [h] at hperm
      exact (List.Perm.nil_eq hperm).symm
    · intro h
      rw [h]
      exact List.mergeSort_nil
  · intro f hf
    rw [pick_latest_image] at hf
    obtain ⟨rest, hrest⟩ : ∃ rest,
        (imageCandidates files).mergeSort
          (fun a b => decide (parse_dt parseDt b ≤ parse_dt parseDt a)) = f :: rest := by
      cases hm : (imageCandidates files).mergeSort
          (fun a b => decide (parse_dt parseDt b ≤ parse_dt parseDt a)) with
      | nil =>
        rw [hm] at hf
        cases hf
      | cons a t =>
        rw [hm] at hf
        cases hf
        exact ⟨t, rfl⟩
    constructor
    · exact hperm.subset (by rw [hrest]; exact List.mem_cons_self _ _)
    · intro g hg
      have hg2 : g ∈ f :: rest := by
        rw [← hrest]
        exact hperm.symm.subset hg
      rcases List.mem_cons.mp hg2 with rfl | hgr
      · exact le_refl _
      · have hfg := (List.pairwise_cons.mp (hrest ▸ hsorted)).1 g hgr
        exact of_decide_eq_true hfg

/-- The reference image for the C6 witness. -/
def imgW : RemoteFile :=
  ⟨"i1", "ref.png", "image/png", some "2024-01-01T00:00:00Z", none, none, false⟩

/-- Witness for C6: empty input yields `none`; a store with a single
image candidate yields that image, which is maximal. -/
theorem pick_latest_image_witness :
    pick_latest_image String.length [] = none
  ∧ imgW ∈ imageCandidates [imgW]
  ∧ ∀ g ∈ imageCandidates [imgW],
      parse_dt String.length g ≤ parse_dt String.length imgW := by
  have hp : pick_latest_image String.length [imgW] = some imgW := by
    rw [pick_latest_image, show imageCandidates [imgW] = [imgW] by decide,
      List.mergeSort_singleton]
    rfl
  have h2 := (pick_latest_image_spec String.length [imgW]).2 imgW hp
  exact ⟨(pick_latest_image_spec String.length []).1.mpr rfl, h2.1, h2.2⟩

/-! ## C7: the output naming convention -/

theorem rlast_lt_length (c : Char) :
    ∀ (l : List Char) (i : Nat), rlast c l = some i → i < l.length := by
  intro l
  induction l with
  | nil => simp [rlast]
  | cons a rest ih =>
    intro i h
    rw [rlast] at h
    cases hr : rlast c rest with
    | some j =>
      rw [hr] at h
      cases h
      have := ih j hr
      simp only [List.length_cons]
      omega
    | none =>
      rw [hr] at h
      by_cases hac : a == c
      · rw [if_pos hac] at h
        cases h
        simp
      · rw [if_neg hac] at h
        cases h

theorem rlast_append_of_some {c : Char} {ys : List Char} {i : Nat}
    (h : rlast c ys = some i) :
    ∀ xs : List Char, rlast c (xs ++ ys) = some (xs.length + i) := by
  intro xs
  induction xs with
  | nil => simpa using h
  | cons a rest ih =>
    show rlast c (a :: (rest ++ ys)) = _
    rw [rlast, ih]
    simp only [List.length_cons]
    congr 1
    omega

theorem rlast_append_of_none {c : Char} {ys : List Char} (h : rlast c ys = none) :
    ∀ xs : List Char, rlast c (xs ++ ys) = rlast c xs := by
  intro xs
  induction xs with
  | nil => simpa using h
  | cons a rest ih =>
    show rlast c (a :: (rest ++ ys)) = rlast c (a :: rest)
    rw [rlast, ih, rlast]

theorem take_length_add_append {α : Type} (l₁ : List α) (n : Nat) (l₂ : List α) :
    (l₁ ++ l₂).take (l₁.length + n) = l₁ ++ l₂.take n := by
  induction l₁ with
  | nil => simp
  | cons a rest ih =>
    show ((a :: (rest ++ l₂)).take (rest.length + 1 + n)) = a :: (rest ++ l₂.take n)
    rw [show rest.length + 1 + n = (rest.length + n) + 1 by omega]
    rw [List.take_succ_cons, ih]

theorem drop_length_add_append {α : Type} (l₁ : List α) (n : Nat) (l₂ : List α) :
    (l₁ ++ l₂).drop (l₁.length + n) = l₂.drop n := by
  induction l₁ with
  | nil => simp
  | cons a rest ih =>
    show ((a :: (rest ++ l₂)).drop (rest.length + 1 + n)) = l₂.drop n
    rw [show rest.length + 1 + n = (rest.length + n) + 1 by omega]
    rw [List.drop_succ_cons, ih]

/-- `splitext` on any name of the form `b ++ "__MIX__PRO.mp4"` splits
exactly before the final `.mp4`. -/
theorem splitext_append_suffix (b : List Char) :
    splitext (b ++ "__MIX__PRO.mp4".data) =
      (b ++ "__MIX__PRO".data, ".mp4".data) := by
  have hdot : rlast '.' (b ++ "__MIX__PRO.mp4".data) = some (b.length + 10) :=
    rlast_append_of_some (by decide) b
  have hgetb : (b ++ "__MIX__PRO.mp4".data).getD b.length '.' = '_' := by
    rw [List.getD_append_right _ _ _ _ (le_refl _ )]
    simp
  rw [splitext, hdot]
  have hsplit : (b ++ "__MIX__PRO.mp4".data).take (b.length + 10) = b ++ "__MIX__PRO".data
      ∧ (b ++ "__MIX__PRO.mp4".data).drop (b.length + 10) = ".mp4".data := by
    constructor
    · rw [take_length_add_append]
      rfl
    · rw [drop_length_add_append]
      rfl
  have hmem : ∀ start : Nat, start ≤ b.length →
      (List.range' start (b.length + 10 - start)).any
        (fun i => !((b ++ "__MIX__PRO.mp4".data).getD i '.' == '.')) = true := by
    intro start hstart
    rw [List.any_eq_true]
    refine ⟨b.length, ?_, ?_⟩
    · rw [List.mem_range']
      exact ⟨b.length - start, by omega, by omega⟩
    · rw [hgetb]
      rfl
  cases hsep : rlast '/' b with
  | none =>
    have : rlast '/' (b ++ "__MIX__PRO.mp4".data) = none := by
      rw [rlast_append_of_none (by decide) b, hsep]
    rw [this]
    show (if 0 ≤ b.length + 10 then _ else _) = _
    rw [if_pos (by omega), if_pos (hmem 0 (by omega)), hsplit.1, hsplit.2]
  | some s =>
    have hslt : s < b.length := rlast_lt_length '/' b s hsep
    have : rlast '/' (b ++ "__MIX__PRO.mp4".data) = some s := by
      rw [rlast_append_of_none (by decide) b, hsep]
    rw [this]
    show (if s + 1 ≤ b.length + 10 then _ else _) = _
    rw [if_pos (by omega), if_pos (hmem (s + 1) (by omega)), hsplit.1, hsplit.2]

/-- **C7, counterexample.** For a source named `clip.mov` the uploaded
output is `clip__MIX__PRO.mp4`: its extension is the fixed `.mp4`, not
the source's original `.mov`. -/
theorem out_name_extension_counterexample :
    out_name "clip.mov" = "clip__MIX__PRO.mp4"
  ∧ (splitext "clip.mov".data).2 = ".mov".data
  ∧ (splitext (out_name "clip.mov").data).2 = ".mp4".data
  ∧ ".mp4".data ≠ ".mov".data :=
  ⟨by decide, by decide, by decide, by decide⟩

/-- **C7, amended.** For every processed item, the uploaded output
artifact's name is the source item's base name (`os.path.splitext` base)
followed by `__MIX__PRO` and the fixed extension `.mp4`, regardless of
the source's original extension. -/
theorem out_name_spec (name : String) :
    out_name name = baseOf name ++ "__MIX__PRO.mp4"
  ∧ splitext (out_name name).data = ((baseOf name ++ "__MIX__PRO").data, ".mp4".data) := by
  refine ⟨rfl, ?_⟩
  rw [show (out_name name).data = (baseOf name).data ++ "__MIX__PRO.mp4".data from
    String.data_append _ _]
  rw [splitext_append_suffix]
  rw [show (baseOf name ++ "__MIX__PRO").data = (baseOf name).data ++ "__MIX__PRO".data from
    String.data_append _ _]

/-! ## C1: upload strictly precedes the processed-rename -/

theorem new_in_name_eq (name : String) :
    new_in_name name = baseOf name ++ "__PROCESSED.mp4" := by
  apply String.ext
  rw [new_in_name, String.data_append, String.data_append, String.data_append,
    List.append_assoc]
  congr 1

theorem processItem_rename_after_upload (ex : String → Bool) (o : ItemOracles)
    (f : RemoteFile) (k : Nat) (fid nn : String)
    (h : (processItem ex o f).2.get? k = some (.renamed fid nn)) :
    k = 3 ∧ nn = new_in_name f.name ∧
      (processItem ex o f).2.get? 2 = some (.uploaded (out_name f.name)) := by
  unfold processItem at h ⊢
  by_cases hskip : skipsItem f
  · rw [if_pos hskip] at h
    rcases k with _ | k <;> simp at h
  · rw [if_neg hskip] at h ⊢
    cases hdl : o.dl with
    | error m =>
      rw [hdl] at h
      simp at h
    | ok u =>
      rw [hdl] at h
      cases hgen : (call_wan2_2 ex o.predict 5).result with
      | error le =>
        rw [hgen] at h
        rcases k with _ | k <;> simp at h
      | ok out =>
        rw [hgen] at h
        cases hup : o.up with
        | error m =>
          rw [hup] at h
          rcases k with _ | _ | k <;> simp at h
        | ok oid =>
          rw [hup] at h
          cases hrn : o.rn with
          | error m =>
            rw [hrn] at h
            rcases k with _ | _ | _ | k <;> simp at h
          | ok v =>
            rw [hrn] at h
            rcases k with _ | _ | _ | _ | k <;> simp at h
            exact ⟨rfl, h.2.symm, rfl⟩

/-- **C1.** In every run, whenever the trace of remote effects contains a
processed-rename at position `k`, some earlier position `j < k` holds the
successful upload of that item's generated output (same base name `b`):
an item is never marked processed unless the upload of its output has
already completed successfully. -/
theorem upload_precedes_rename (ex : String → Bool)
    (items : List (RemoteFile × ItemOracles)) (k : Nat) (fid nn : String)
    (h : (runItems ex items).2.get? k = some (.renamed fid nn)) :
    ∃ j < k, ∃ b : String,
      nn = b ++ "__PROCESSED.mp4" ∧
      (runItems ex items).2.get? j = some (.uploaded (b ++ "__MIX__PRO.mp4")) := by
  induction items generalizing k with
  | nil =>
    rw [runItems] at h
    simp at h
  | cons p rest ih =>
    obtain ⟨f, o⟩ := p
    rw [runItems] at h ⊢
    cases hpi : processItem ex o f with
    | mk res tr =>
      rw [hpi] at h
      cases res with
      | ok u =>
        have h2 : (tr ++ (runItems ex rest).2).get? k = some (.renamed fid nn) := h
        by_cases hk : k < tr.length
        · rw [List.get?_append hk] at h2
          obtain ⟨hk3, hnn, hup2⟩ :=
            processItem_rename_after_upload ex o f k fid nn (by rw [hpi]; exact h2)
          subst hk3
          refine ⟨2, by omega, baseOf f.name, ?_, ?_⟩
          · rw [hnn]
            exact new_in_name_eq f.name
          · show (tr ++ (runItems ex rest).2).get? 2 = _
            rw [List.get?_append (by omega)]
            have hu2 : tr.get? 2 = some (.uploaded (out_name f.name)) := by
              rw [hpi] at hup2
              exact hup2
            rw [hu2]
            rfl
        · rw [List.get?_append_right (by omega)] at h2
          obtain ⟨j, hj, b, hb, hup⟩ := ih (k - tr.length) h2
          refine ⟨tr.length + j, by omega, b, hb, ?_⟩
          show (tr ++ (runItems ex rest).2).get? (tr.length + j) = _
          rw [List.get?_append_right (by omega),
            show tr.length + j - tr.length = j by omega]
          exact hup
      | error e =>
        have h2 : tr.get? k = some (.renamed fid nn) := h
        obtain ⟨hk3, hnn, hup2⟩ :=
          processItem_rename_after_upload ex o f k fid nn (by rw [hpi]; exact h2)
        subst hk3
        refine ⟨2, by omega, baseOf f.name, ?_, ?_⟩
        · rw [hnn]
          exact new_in_name_eq f.name
        · show tr.get? 2 = _
          have hu2 : tr.get? 2 = some (.uploaded (out_name f.name)) := by
            rw [hpi] at hup2
            exact hup2
          rw [hu2]
          rfl

/-- The remote-call oracles for the C1 witness: everything succeeds and
the generation returns an existing local path on the first attempt. -/
def oraclesW : ItemOracles :=
  ⟨.ok (), fun _ => .ok (.str "/tmp/gen.mp4"), .ok "newid", .ok ()⟩

/-- The work item for the C1 witness (no declared size, so the gate
keeps it). -/
def itemW : RemoteFile := ⟨"vid1", "a.mp4", "video/mp4", none, none, none, false⟩

def exW1 : String → Bool := fun _ => true

/-- Witness for C1: in the one-item all-success run, the rename at trace
position 3 is preceded by the matching upload. -/
theorem upload_precedes_rename_witness :
    ∃ j < 3, ∃ b : String,
      ("a__PROCESSED.mp4" : String) = b ++ "__PROCESSED.mp4" ∧
      (runItems exW1 [(itemW, oraclesW)]).2.get? j =
        some (.uploaded (b ++ "__MIX__PRO.mp4")) :=
  upload_precedes_rename exW1 [(itemW, oraclesW)] 3 "vid1" "a__PROCESSED.mp4" (by decide)

end Animate
